import Mathlib

/-!
Verification of the GCN core (`gcn.py`): the `GraphConvolution` layer and the
`StackedGraphConvolution` model.

Modelling choices:
* Tensors are dense matrices over `ℚ` (exact arithmetic standing in for the
  framework's floating-point tensors).
* `utils.normalize_adjacency` is an external collaborator whose algorithm is
  opaque; every statement is parameterized over an arbitrary normalization
  function `normAdj : Matrix → Bool → Matrix` (arguments mirroring
  `normalize_adjacency(A, rooted_subtree)`).
* A `GraphConvolution` value models the layer *after* `build` has run: the
  flags fixed at construction plus the created weights.  `edge_kernel` is an
  `Option` because `call` branches on `self.edge_kernel is not None`; `bias`
  and `rooted_kernel` are plain fields that `call` reads only under their
  flags (`use_bias`, `rooted_subtree`), exactly as in the source.
* A call's input list `[X, A]` or `[X, A, Z]` is modelled as `X`, `A` and an
  `Option` edge tensor; `call` returns `none` where the Python code would
  raise (third input demanded by an existing `edge_kernel` but absent).
-/

abbrev Mat (n m : ℕ) := Matrix (Fin n) (Fin m) ℚ

abbrev EdgeTensor (n fe : ℕ) := Fin n → Fin n → Fin fe → ℚ

/-- Modelled from the spec: `utils.get_degrees` is missing from the sources;
§3 and §4.1 of the design state that the degree vector `D` is the per-node
row-sum of the adjacency matrix. -/
def get_degrees {N : ℕ} (A : Mat N N) : Fin N → ℚ :=
  fun i => ∑ j, A i j

/-- Elementwise application of a scalar function to a matrix (how a Keras
activation such as `linear` or `relu` acts on a tensor). -/
def matMap {n m : ℕ} (f : ℚ → ℚ) (M : Mat n m) : Mat n m :=
  Matrix.of fun i j => f (M i j)

/-- The rectified linear unit on scalars. -/
def relu (x : ℚ) : ℚ := max x 0

/-- A `GraphConvolution` layer after its weights exist, over feature widths
`F` (input), `Fo` (output, `F_` in the source) and `Fe` (edge features). -/
structure GraphConvolution (F Fo Fe : ℕ) where
  auto_normalize : Bool
  rooted_subtree : Bool
  use_bias : Bool
  activation : ℚ → ℚ
  kernel : Mat F Fo
  bias : Fin Fo → ℚ
  rooted_kernel : Mat F Fo
  edge_kernel : Option (Mat Fe Fo)

/-- The rooted-subtree term of `GraphConvolution.call`:
`tf.expand_dims(1. / get_degrees(A), -1) * (X @ rooted_kernel)`. -/
def rootTerm {N F Fo : ℕ} (A : Mat N N) (X : Mat N F) (rk : Mat F Fo) :
    Mat N Fo :=
  Matrix.of fun i g => (1 / get_degrees A i) * ((X * rk) i g)

/-- The edge-feature term of `GraphConvolution.call`:
`tf.einsum('ij,ijf,fg->ig', A, Z, edge_kernel)`. -/
def edgeTerm {N Fe Fo : ℕ} (A : Mat N N) (Z : EdgeTensor N Fe)
    (ek : Mat Fe Fo) : Mat N Fo :=
  Matrix.of fun i g => ∑ j, ∑ f, A i j * Z i j f * ek f g

/-- `GraphConvolution.call` up to (excluding) the final activation, following
the source statement by statement: optional normalization of `A`, the
aggregation `A @ X @ kernel`, the optional rooted term, the optional edge
term (which demands a third input), the optional bias. -/
def gcPreact {N F Fo Fe : ℕ} (normAdj : Mat N N → Bool → Mat N N)
    (gc : GraphConvolution F Fo Fe) (X : Mat N F) (A : Mat N N)
    (Zopt : Option (EdgeTensor N Fe)) : Option (Mat N Fo) :=
  let A2 := if gc.auto_normalize then normAdj A gc.rooted_subtree else A
  let y0 := A2 * X * gc.kernel
  let y1 := if gc.rooted_subtree then y0 + rootTerm A2 X gc.rooted_kernel
            else y0
  let y2opt : Option (Mat N Fo) :=
    match gc.edge_kernel with
    | none => some y1
    | some ek => Zopt.map fun Z => y1 + edgeTerm A2 Z ek
  y2opt.map fun y2 =>
    if gc.use_bias then y2 + Matrix.of fun _ g => gc.bias g else y2

/-- `GraphConvolution.call`: the pre-activation value passed through the
layer's elementwise activation. -/
def gcForward {N F Fo Fe : ℕ} (normAdj : Mat N N → Bool → Mat N N)
    (gc : GraphConvolution F Fo Fe) (X : Mat N F) (A : Mat N N)
    (Zopt : Option (EdgeTensor N Fe)) : Option (Mat N Fo) :=
  (gcPreact normAdj gc X A Zopt).map (matMap gc.activation)

/-- C1: with `use_bias` disabled, identity (linear) activation,
`rooted_subtree` false and `auto_normalize` false, a call with exactly the
two inputs `[X, A]` on a layer built from them (hence no `edge_kernel`)
returns exactly `A @ X @ kernel`: no root term, edge term or bias. -/
theorem gc_linear_two_inputs {N F Fo Fe : ℕ}
    (normAdj : Mat N N → Bool → Mat N N) (gc : GraphConvolution F Fo Fe)
    (X : Mat N F) (A : Mat N N)
    (hb : gc.use_bias = false) (ha : gc.activation = id)
    (hr : gc.rooted_subtree = false) (hn : gc.auto_normalize = false)
    (he : gc.edge_kernel = none) :
    gcForward normAdj gc X A none = some (A * X * gc.kernel) := by
  simp [gcForward, gcPreact, hb, ha, hr, hn, he]
  rfl

/-- C2: with `rooted_subtree` enabled (and the adjacency used as given, i.e.
`auto_normalize` off, so that both runs aggregate over the same adjacency),
for every adjacency the pre-activation output adds to the non-rooted
computation the per-node term `(1 / D[i]) * (X @ rooted_kernel)[i]` with
`D` the row-sum degree vector of `A`; in particular, on an adjacency of
uniform nonzero degree `d` that root term is
`(1 / d) * (X @ rooted_kernel)`. -/
theorem gc_rooted_term {N F Fo Fe : ℕ}
    (normAdj : Mat N N → Bool → Mat N N) (gc : GraphConvolution F Fo Fe)
    (X : Mat N F) (A : Mat N N) (Zopt : Option (EdgeTensor N Fe))
    (hn : gc.auto_normalize = false) (hr : gc.rooted_subtree = true) :
    gcPreact normAdj gc X A Zopt =
      (gcPreact normAdj { gc with rooted_subtree := false } X A Zopt).map
        (fun y => y + rootTerm A X gc.rooted_kernel)
    ∧ ∀ d : ℚ, d ≠ 0 → (∀ i, get_degrees A i = d) →
        rootTerm A X gc.rooted_kernel =
          Matrix.of fun i g => (1 / d) * ((X * gc.rooted_kernel) i g) := by
  constructor
  · cases hek : gc.edge_kernel with
    | none =>
      cases hub : gc.use_bias <;>
        simp [gcPreact, hn, hr, hek, hub] <;> abel
    | some ek =>
      cases Zopt with
      | none => simp [gcPreact, hn, hr, hek]
      | some Z =>
        cases hub : gc.use_bias <;>
          simp [gcPreact, hn, hr, hek, hub] <;> abel
  · intro d _hdne hd
    ext i g
    simp [rootTerm, hd]

/-- C3: when `edge_kernel` exists and a third input `Z` is supplied, the
pre-activation output adds, over the non-edge computation, the term
`sum_j sum_f A[i,j] * Z[i,j,f] * edge_kernel[f,g]`, where the adjacency in
the sum is the one actually used in aggregation (`A` itself unless
`auto_normalize` replaced it). -/
theorem gc_edge_term {N F Fo Fe : ℕ}
    (normAdj : Mat N N → Bool → Mat N N) (gc : GraphConvolution F Fo Fe)
    (X : Mat N F) (A : Mat N N) (Z : EdgeTensor N Fe) (ek : Mat Fe Fo)
    (hek : gc.edge_kernel = some ek) :
    gcPreact normAdj gc X A (some Z) =
      (gcPreact normAdj { gc with edge_kernel := none } X A (some Z)).map
        fun y => y + Matrix.of fun i g => ∑ j, ∑ f,
          (if gc.auto_normalize then normAdj A gc.rooted_subtree else A) i j
            * Z i j f * ek f g := by
  cases hn : gc.auto_normalize <;>
    cases hr : gc.rooted_subtree <;>
      cases hub : gc.use_bias <;>
        simp [gcPreact, edgeTerm, hn, hr, hub, hek] <;> abel

/-- C10: a layer built without an `edge_kernel` silently ignores a third
(edge feature) input: the call returns exactly the two-input result. -/
theorem gc_extra_input_ignored {N F Fo Fe : ℕ}
    (normAdj : Mat N N → Bool → Mat N N) (gc : GraphConvolution F Fo Fe)
    (X : Mat N F) (A : Mat N N) (Z : EdgeTensor N Fe)
    (he : gc.edge_kernel = none) :
    gcForward normAdj gc X A (some Z) = gcForward normAdj gc X A none := by
  simp [gcForward, gcPreact, he]

/-- The identity normalization, used to instantiate the opaque
`normalize_adjacency` collaborator on concrete examples. -/
def normId {n : ℕ} : Mat n n → Bool → Mat n n := fun A _ => A

/-- A concrete built layer: no bias, identity activation, no flags. -/
def gcEx : GraphConvolution 2 2 2 where
  auto_normalize := false
  rooted_subtree := false
  use_bias := false
  activation := id
  kernel := !![1, 2; 3, 4]
  bias := fun _ => 0
  rooted_kernel := !![1, 0; 0, 1]
  edge_kernel := none

/-- A concrete rooted layer with bias. -/
def gcRootEx : GraphConvolution 2 2 2 :=
  { gcEx with rooted_subtree := true, use_bias := true, bias := fun _ => 1 }

/-- A concrete layer with a (2, 2, 1) edge-feature slot and an edge kernel. -/
def gcEdgeEx : GraphConvolution 2 2 1 where
  auto_normalize := false
  rooted_subtree := false
  use_bias := false
  activation := id
  kernel := !![1, 0; 0, 1]
  bias := fun _ => 0
  rooted_kernel := !![0, 0; 0, 0]
  edge_kernel := some !![1, 2]

/-- A concrete feature matrix. -/
def X0 : Mat 2 2 := !![1, 2; 3, 4]

/-- A concrete adjacency of uniform degree 1. -/
def A0 : Mat 2 2 := !![0, 1; 1, 0]

/-- A concrete edge-feature tensor with `F_edge = 1`. -/
def Z1 : EdgeTensor 2 1 := fun i j _ => if i = j then 0 else 3

/-- A concrete edge-feature tensor with `F_edge = 2`. -/
def Z2 : EdgeTensor 2 2 := fun _ _ _ => 5

theorem gc_linear_two_inputs_case :
    gcForward normId gcEx X0 A0 none = some (A0 * X0 * gcEx.kernel) :=
  gc_linear_two_inputs normId gcEx X0 A0 rfl rfl rfl rfl rfl

theorem gc_rooted_term_case :
    gcPreact normId gcRootEx X0 A0 none =
      (gcPreact normId { gcRootEx with rooted_subtree := false }
          X0 A0 none).map
        (fun y => y + rootTerm A0 X0 gcRootEx.rooted_kernel)
    ∧ rootTerm A0 X0 gcRootEx.rooted_kernel =
        Matrix.of fun i g =>
          (1 / 1 : ℚ) * ((X0 * gcRootEx.rooted_kernel) i g) :=
  ⟨(gc_rooted_term normId gcRootEx X0 A0 none rfl rfl).1,
   (gc_rooted_term normId gcRootEx X0 A0 none rfl rfl).2 1 one_ne_zero
     (by intro i; fin_cases i <;> simp [get_degrees, A0, Fin.sum_univ_two])⟩

theorem gc_edge_term_case :
    gcPreact normId gcEdgeEx X0 A0 (some Z1) =
      (gcPreact normId { gcEdgeEx with edge_kernel := none }
          X0 A0 (some Z1)).map
        fun y => y + Matrix.of fun i g => ∑ j, ∑ f,
          (if gcEdgeEx.auto_normalize then
              normId A0 gcEdgeEx.rooted_subtree else A0) i j
            * Z1 i j f * (!![1, 2] : Mat 1 2) f g :=
  gc_edge_term normId gcEdgeEx X0 A0 Z1 !![1, 2] rfl

theorem gc_extra_input_ignored_case :
    gcForward normId gcEx X0 A0 (some Z2) =
      gcForward normId gcEx X0 A0 none :=
  gc_extra_input_ignored normId gcEx X0 A0 Z2 rfl

theorem rootTerm_zero_kernel {N F Fo : ℕ} (A : Mat N N) (X : Mat N F) :
    rootTerm A X (0 : Mat F Fo) = 0 := by
  ext i g
  simp [rootTerm]

theorem edgeTerm_zero_kernel {N Fe Fo : ℕ} (A : Mat N N)
    (Z : EdgeTensor N Fe) : edgeTerm A Z (0 : Mat Fe Fo) = 0 := by
  ext i g
  simp [edgeTerm]

theorem matMap_id {n m : ℕ} (M : Mat n m) : matMap id M = M := rfl

theorem of_const_zero {n m : ℕ} :
    (Matrix.of fun (_ : Fin n) (_ : Fin m) => (0 : ℚ)) = 0 := rfl

/-- C7: with linear (identity) activation and every created weight
zero-initialized (`kernel`, and — when they exist — `bias`, `rooted_kernel`
and `edge_kernel`), any successful call returns the all-zero `(N, F_out)`
matrix, for every adjacency and feature matrix of compatible shapes. -/
theorem gc_zero_weights_zero_output {N F Fo Fe : ℕ}
    (normAdj : Mat N N → Bool → Mat N N) (gc : GraphConvolution F Fo Fe)
    (X : Mat N F) (A : Mat N N) (Zopt : Option (EdgeTensor N Fe))
    (y : Mat N Fo)
    (ha : gc.activation = id) (hk : gc.kernel = 0)
    (hb : gc.use_bias = true → gc.bias = fun _ => 0)
    (hr : gc.rooted_subtree = true → gc.rooted_kernel = 0)
    (he : ∀ ek, gc.edge_kernel = some ek → ek = 0)
    (hy : gcForward normAdj gc X A Zopt = some y) :
    y = 0 := by
  rcases hek : gc.edge_kernel with _ | ek2
  · cases hub : gc.use_bias <;> cases hrs : gc.rooted_subtree <;>
      simp_all [gcForward, gcPreact, rootTerm_zero_kernel, matMap_id,
        of_const_zero]
  · have h0 := he ek2 hek
    subst h0
    rcases Zopt with _ | Z
    · simp_all [gcForward, gcPreact]
    · cases hub : gc.use_bias <;> cases hrs : gc.rooted_subtree <;>
        simp_all [gcForward, gcPreact, rootTerm_zero_kernel,
          edgeTerm_zero_kernel, matMap_id, of_const_zero]

/-- The concrete all-zero-weight layer used to witness C7. -/
def gcZeroEx : GraphConvolution 2 2 2 where
  auto_normalize := false
  rooted_subtree := true
  use_bias := true
  activation := id
  kernel := 0
  bias := fun _ => 0
  rooted_kernel := 0
  edge_kernel := some 0

theorem gc_zero_weights_zero_output_case :
    gcForward normId gcZeroEx X0 A0 (some Z2) = some 0 := by
  have hs : (gcForward normId gcZeroEx X0 A0 (some Z2)).isSome = true := by
    simp [gcForward, gcPreact, gcZeroEx]
  obtain ⟨y, hy⟩ := Option.isSome_iff_exists.mp hs
  rw [hy,
    gc_zero_weights_zero_output normId gcZeroEx X0 A0 (some Z2) y rfl rfl
      (fun _ => rfl) (fun _ => rfl)
      (fun ek hek => by simpa [gcZeroEx] using hek.symm) hy]

/-- `GraphConvolution.call` with the layer state threaded explicitly: the
method body contains no assignment to `self`, so the post-state is the
pre-state, returned unchanged next to the output. -/
def gcCallSt {N F Fo Fe : ℕ} (normAdj : Mat N N → Bool → Mat N N)
    (gc : GraphConvolution F Fo Fe) (X : Mat N F) (A : Mat N N)
    (Zopt : Option (EdgeTensor N Fe)) :
    Option (Mat N Fo) × GraphConvolution F Fo Fe :=
  (gcForward normAdj gc X A Zopt, gc)

/-- C9: a call leaves the layer's parameters untouched, and a second call on
the resulting state with identical inputs returns the identical output. -/
theorem gc_call_deterministic_stateless {N F Fo Fe : ℕ}
    (normAdj : Mat N N → Bool → Mat N N) (gc : GraphConvolution F Fo Fe)
    (X : Mat N F) (A : Mat N N) (Zopt : Option (EdgeTensor N Fe)) :
    (gcCallSt normAdj gc X A Zopt).2 = gc
    ∧ (gcCallSt normAdj (gcCallSt normAdj gc X A Zopt).2 X A Zopt).1
        = (gcCallSt normAdj gc X A Zopt).1 :=
  ⟨rfl, rfl⟩

/-- The construction-time configuration that `GraphConvolution.build` reads:
the output width `F_` and the `use_bias` / `rooted_subtree` flags. -/
structure GCBuildConfig where
  F_out : ℕ
  use_bias : Bool
  rooted_subtree : Bool

/-- The shapes of the weights `build` creates. -/
structure GCWeightShapes where
  kernel : ℕ × ℕ
  bias : Option ℕ
  rooted_kernel : Option (ℕ × ℕ)
  edge_kernel : Option (ℕ × ℕ)

/-- `GraphConvolution.build`, on shapes: asserts the input list has length 2
or 3, reads `F = input_shape[0][-1]`, creates `kernel` (and `bias`,
`rooted_kernel` under their flags), and creates `edge_kernel` from
`F_edge = input_shape[2][-1]` exactly when a third shape is present and it
differs from the sentinel `(0,)`.  `none` models the fatal Python error
(failed `assert`, or `[-1]` indexing into a rank-0 shape). -/
def build (cfg : GCBuildConfig) (input_shape : List (List ℕ)) :
    Option GCWeightShapes :=
  if input_shape.length = 2 ∨ input_shape.length = 3 then
    match input_shape[0]? with
    | none => none
    | some s0 =>
      match s0.getLast? with
      | none => none
      | some F =>
        if input_shape.length = 3 ∧ input_shape[2]? ≠ some [0] then
          match input_shape[2]? with
          | none => none
          | some s2 =>
            match s2.getLast? with
            | none => none
            | some Fe =>
              some { kernel := (F, cfg.F_out),
                     bias := if cfg.use_bias then some cfg.F_out else none,
                     rooted_kernel :=
                       if cfg.rooted_subtree then some (F, cfg.F_out)
                       else none,
                     edge_kernel := some (Fe, cfg.F_out) }
        else
          some { kernel := (F, cfg.F_out),
                 bias := if cfg.use_bias then some cfg.F_out else none,
                 rooted_kernel :=
                   if cfg.rooted_subtree then some (F, cfg.F_out) else none,
                 edge_kernel := none }
  else none

/-- A build configuration used on concrete inputs. -/
def cfg0 : GCBuildConfig := { F_out := 4, use_bias := true,
                              rooted_subtree := false }

/-- C4, counterexample: on input shapes `[[2,3],[2,2],[5,0]]` the third
shape's trailing dimension is the degenerate `0`, yet — since `[5,0]` is not
the sentinel `(0,)` — `build` does create an `edge_kernel` (of shape
`(0, F_out)`), so edge-kernel creation is not equivalent to the trailing
dimension being non-degenerate. -/
theorem build_edge_kernel_degenerate_created :
    (build cfg0 [[2, 3], [2, 2], [5, 0]]).map GCWeightShapes.edge_kernel
      = some (some (0, 4))
    ∧ ([5, 0].getLast? = some 0) := by
  constructor
  · rfl
  · rfl

/-- C4, amended: `build` creates an `edge_kernel` iff a third input shape is
present and it is not the sentinel shape `(0,)` (in particular a third shape
such as `(k, 0)` still creates a degenerate edge kernel). -/
theorem build_edge_kernel_iff (cfg : GCBuildConfig)
    (shapes : List (List ℕ)) (bw : GCWeightShapes)
    (h : build cfg shapes = some bw) :
    bw.edge_kernel.isSome = true
      ↔ (shapes.length = 3 ∧ shapes[2]? ≠ some [0]) := by
  rw [build] at h
  split at h
  · split at h
    · simp at h
    · split at h
      · simp at h
      · split at h
        next hedge =>
          split at h
          · simp at h
          · split at h
            · simp at h
            · obtain rfl := Option.some.inj h
              simpa using hedge
        next hedge =>
          obtain rfl := Option.some.inj h
          simpa using hedge
  · simp at h

theorem mem_of_getElemOpt {α : Type} {l : List α} {i : ℕ} {a : α}
    (h : l[i]? = some a) : a ∈ l := by
  rw [List.getElem?_eq_some_iff] at h
  obtain ⟨hlt, rfl⟩ := h
  exact List.getElem_mem hlt

/-- C8: on well-formed input shapes (each tensor of rank at least one, as
node features, adjacency and edge features are), weight instantiation
succeeds exactly when the input list has length 2 or 3; any other arity
fails fatally. -/
theorem build_succeeds_iff_arity (cfg : GCBuildConfig)
    (shapes : List (List ℕ)) (hne : ∀ s ∈ shapes, s ≠ []) :
    (build cfg shapes).isSome = true
      ↔ (shapes.length = 2 ∨ shapes.length = 3) := by
  constructor
  · intro h
    by_contra hlen
    rw [build, if_neg hlen] at h
    simp at h
  · intro hlen
    have hpos : 0 < shapes.length := by rcases hlen with h2 | h3 <;> omega
    obtain ⟨s0, h0⟩ : ∃ s0, shapes[0]? = some s0 :=
      ⟨_, List.getElem?_eq_getElem hpos⟩
    have hs0 : s0 ≠ [] := hne s0 (mem_of_getElemOpt h0)
    obtain ⟨F, hF⟩ : ∃ F, s0.getLast? = some F :=
      Option.isSome_iff_exists.mp (List.getLast?_isSome.mpr hs0)
    by_cases hedge : shapes.length = 3 ∧ shapes[2]? ≠ some [0]
    · have h2lt : 2 < shapes.length := by omega
      obtain ⟨s2, h2⟩ : ∃ s2, shapes[2]? = some s2 :=
        ⟨_, List.getElem?_eq_getElem h2lt⟩
      have hs2 : s2 ≠ [] := hne s2 (mem_of_getElemOpt h2)
      obtain ⟨Fe, hFe⟩ : ∃ Fe, s2.getLast? = some Fe :=
        Option.isSome_iff_exists.mp (List.getLast?_isSome.mpr hs2)
      rw [build, if_pos hlen, h0]
      simp only [hF, h2, hFe]
      rw [if_pos ⟨hedge.1, fun hc => hedge.2 (by rw [h2, hc])⟩]
      simp
    · rw [build, if_pos hlen, h0]
      simp only [hF, if_neg hedge]
      simp

theorem build_edge_kernel_iff_case :
    ({ kernel := (3, 4), bias := some 4, rooted_kernel := none,
       edge_kernel := some (5, 4) } : GCWeightShapes).edge_kernel.isSome
        = true
      ↔ (([[2, 3], [2, 2], [2, 2, 5]] : List (List ℕ)).length = 3
         ∧ ([[2, 3], [2, 2], [2, 2, 5]] : List (List ℕ))[2]? ≠ some [0]) :=
  build_edge_kernel_iff cfg0 [[2, 3], [2, 2], [2, 2, 5]] _ rfl

theorem build_succeeds_iff_arity_case :
    (build cfg0 [[2, 3], [2, 2]]).isSome = true
      ↔ (([[2, 3], [2, 2]] : List (List ℕ)).length = 2
         ∨ ([[2, 3], [2, 2]] : List (List ℕ)).length = 3) :=
  build_succeeds_iff_arity cfg0 [[2, 3], [2, 2]] (by decide)

/-- `StackedGraphConvolution` after build: `num_layers` internal
`GraphConvolution` layers, each created by the constructor as
`GraphConvolution(num_features, activation='linear',
rooted_subtree=rooted_subtree)` — hence linear (identity) activation,
default `use_bias=True`, default `auto_normalize=False`, and the propagated
`rooted_subtree` flag.  The shared feature width `Fo` is `num_features`
(every layer past the first sees it; we take the input width equal to it). -/
structure StackedGraphConvolution (Fo Fe : ℕ) where
  num_layers : ℕ
  last_layer_only : Bool
  rooted_subtree : Bool
  gc_layers : List (GraphConvolution Fo Fo Fe)
  layers_length : gc_layers.length = num_layers
  layers_ctor : ∀ gc ∈ gc_layers,
    gc.activation = id ∧ gc.use_bias = true ∧ gc.auto_normalize = false
      ∧ gc.rooted_subtree = rooted_subtree

/-- `StackedGraphConvolution.vocab_size`. -/
def vocab_size {Fo Fe : ℕ} (m : StackedGraphConvolution Fo Fe) : ℕ :=
  if m.last_layer_only then 1 else m.num_layers

/-- The loop of `StackedGraphConvolution.call`: thread `x` through the
layers, keep a layer's output when `not last_layer_only or index+1 ==
len(gc_layers)`, and feed `activation(x)` (the shared ReLU) to the next
layer. -/
def stackedLoop {N Fo Fe : ℕ} (normAdj : Mat N N → Bool → Mat N N)
    (lastOnly : Bool) (A : Mat N N) (Zopt : Option (EdgeTensor N Fe)) :
    List (GraphConvolution Fo Fo Fe) → Mat N Fo → Option (List (Mat N Fo))
  | [], _ => some []
  | l :: rest, x =>
    match gcForward normAdj l x A Zopt with
    | none => none
    | some y =>
      match stackedLoop normAdj lastOnly A Zopt rest (matMap relu y) with
      | none => none
      | some tail =>
        some (if lastOnly && !rest.isEmpty then tail else y :: tail)

/-- `StackedGraphConvolution.call`: normalize the adjacency once up front
(`utils.normalize_adjacency(inputs[1], rooted_subtree)`), then run the
layer loop; the remaining inputs (the optional edge tensor) are forwarded
unchanged to every layer. -/
def stackedCall {N Fo Fe : ℕ} (normAdj : Mat N N → Bool → Mat N N)
    (m : StackedGraphConvolution Fo Fe) (X : Mat N Fo) (A : Mat N N)
    (Zopt : Option (EdgeTensor N Fe)) : Option (List (Mat N Fo)) :=
  stackedLoop normAdj m.last_layer_only (normAdj A m.rooted_subtree) Zopt
    m.gc_layers X

/-- The specification-side chain of per-layer *pre-activation* outputs:
`y_i = gcPreact(layer_i, x_i)` and `x_(i+1) = relu(y_i)`; every `y_i` is
listed, in order. -/
def preactChain {N Fo Fe : ℕ} (normAdj : Mat N N → Bool → Mat N N)
    (A : Mat N N) (Zopt : Option (EdgeTensor N Fe)) :
    List (GraphConvolution Fo Fo Fe) → Mat N Fo → Option (List (Mat N Fo))
  | [], _ => some []
  | l :: rest, x =>
    match gcPreact normAdj l x A Zopt with
    | none => none
    | some y =>
      match preactChain normAdj A Zopt rest (matMap relu y) with
      | none => none
      | some tail => some (y :: tail)

theorem preactChain_length {N Fo Fe : ℕ}
    (normAdj : Mat N N → Bool → Mat N N) (A : Mat N N)
    (Zopt : Option (EdgeTensor N Fe))
    (layers : List (GraphConvolution Fo Fo Fe)) :
    ∀ (x : Mat N Fo) ys, preactChain normAdj A Zopt layers x = some ys →
      ys.length = layers.length := by
  induction layers with
  | nil =>
    intro x ys h
    simp only [preactChain] at h
    obtain rfl := (Option.some.inj h).symm
    rfl
  | cons l rest ih =>
    intro x ys h
    simp only [preactChain] at h
    cases hy : gcPreact normAdj l x A Zopt with
    | none => rw [hy] at h; exact Option.noConfusion h
    | some y =>
      simp only [hy] at h
      cases ht : preactChain normAdj A Zopt rest (matMap relu y) with
      | none => rw [ht] at h; exact Option.noConfusion h
      | some tail =>
        simp only [ht] at h
        obtain rfl := (Option.some.inj h).symm
        simp [ih _ _ ht]

theorem stackedLoop_eq_preactChain {N Fo Fe : ℕ}
    (normAdj : Mat N N → Bool → Mat N N) (lastOnly : Bool) (A : Mat N N)
    (Zopt : Option (EdgeTensor N Fe))
    (layers : List (GraphConvolution Fo Fo Fe))
    (hact : ∀ gc ∈ layers, gc.activation = id) :
    ∀ (x : Mat N Fo) ys, preactChain normAdj A Zopt layers x = some ys →
      stackedLoop normAdj lastOnly A Zopt layers x
        = some (if lastOnly then ys.drop (ys.length - 1) else ys) := by
  induction layers with
  | nil =>
    intro x ys h
    simp only [preactChain] at h
    obtain rfl := (Option.some.inj h).symm
    cases lastOnly <;> simp [stackedLoop]
  | cons l rest ih =>
    intro x ys h
    simp only [preactChain] at h
    cases hy : gcPreact normAdj l x A Zopt with
    | none => rw [hy] at h; exact Option.noConfusion h
    | some y =>
      simp only [hy] at h
      cases ht : preactChain normAdj A Zopt rest (matMap relu y) with
      | none => rw [ht] at h; exact Option.noConfusion h
      | some tail =>
        simp only [ht] at h
        obtain rfl := (Option.some.inj h).symm
        have htail := ih (fun gc hg => hact gc (List.mem_cons_of_mem _ hg))
          (matMap relu y) tail ht
        have hfwd : gcForward normAdj l x A Zopt = some y := by
          rw [gcForward, hy]
          simp [hact l (List.mem_cons_self l rest), matMap_id]
        simp only [stackedLoop, hfwd, htail]
        cases lastOnly with
        | false => simp
        | true =>
          cases rest with
          | nil =>
            have htnil : tail = [] := by
              simp only [preactChain] at ht
              exact (Option.some.inj ht).symm
            subst htnil
            simp
          | cons l2 rest2 =>
            have htl : tail.length = rest2.length + 1 := by
              simpa using preactChain_length normAdj A Zopt _ _ _ ht
            simp [htl]

/-- C5: a stacked call returns exactly the kept pre-activation (pre-ReLU)
layer outputs of the chain `y_i = layer_i(x_i)`, `x_(i+1) = relu(y_i)` run
on the once-normalized adjacency — the whole chain when `last_layer_only`
is false, only the final element when it is true — and the returned
sequence has length 1 in the latter case and `num_layers` otherwise. -/
theorem stacked_call_outputs {N Fo Fe : ℕ}
    (normAdj : Mat N N → Bool → Mat N N) (m : StackedGraphConvolution Fo Fe)
    (X : Mat N Fo) (A : Mat N N) (Zopt : Option (EdgeTensor N Fe))
    (ys : List (Mat N Fo)) (hpos : 0 < m.num_layers)
    (h : preactChain normAdj (normAdj A m.rooted_subtree) Zopt
          m.gc_layers X = some ys) :
    stackedCall normAdj m X A Zopt
      = some (if m.last_layer_only then ys.drop (ys.length - 1) else ys)
    ∧ (if m.last_layer_only then ys.drop (ys.length - 1) else ys).length
      = (if m.last_layer_only then 1 else m.num_layers) := by
  have hact : ∀ gc ∈ m.gc_layers, gc.activation = id :=
    fun gc hg => (m.layers_ctor gc hg).1
  have h1 := stackedLoop_eq_preactChain normAdj m.last_layer_only
    (normAdj A m.rooted_subtree) Zopt m.gc_layers hact X ys h
  have hlen : ys.length = m.num_layers := by
    rw [preactChain_length normAdj (normAdj A m.rooted_subtree) Zopt
      m.gc_layers X ys h, m.layers_length]
  refine ⟨h1, ?_⟩
  cases hl : m.last_layer_only with
  | false => simp [hlen]
  | true =>
    simp only [if_true]
    rw [List.length_drop]
    omega

/-- C6: `vocab_size()` is exactly 1 when `last_layer_only` is set and
exactly `num_layers` otherwise, for any stack with at least one layer. -/
theorem vocab_size_eq {Fo Fe : ℕ} (m : StackedGraphConvolution Fo Fe)
    (_hpos : 1 ≤ m.num_layers) :
    vocab_size m = if m.last_layer_only then 1 else m.num_layers := rfl

/-- A concrete internal layer as the `StackedGraphConvolution` constructor
makes them: linear activation, bias on, no auto-normalization. -/
def gcStackLayer : GraphConvolution 1 1 0 where
  auto_normalize := false
  rooted_subtree := false
  use_bias := true
  activation := id
  kernel := 0
  bias := fun _ => 1
  rooted_kernel := 0
  edge_kernel := none

/-- A concrete two-layer stack keeping every layer's output. -/
def stackEx : StackedGraphConvolution 1 0 where
  num_layers := 2
  last_layer_only := false
  rooted_subtree := false
  gc_layers := [gcStackLayer, gcStackLayer]
  layers_length := rfl
  layers_ctor := by
    intro gc hg
    simp only [List.mem_cons, List.not_mem_nil, or_false, or_self] at hg
    subst hg
    exact ⟨rfl, rfl, rfl, rfl⟩

/-- The constant-one 1×1 matrix: the output of `gcStackLayer` (zero kernel
plus all-ones bias) on any input. -/
def oneMat : Mat 1 1 := Matrix.of fun _ _ => 1

theorem stacked_call_outputs_case :
    stackedCall normId stackEx !![1] !![1] none
      = some (if stackEx.last_layer_only then
          [oneMat, oneMat].drop ([oneMat, oneMat].length - 1)
        else [oneMat, oneMat])
    ∧ (if stackEx.last_layer_only then
          [oneMat, oneMat].drop ([oneMat, oneMat].length - 1)
        else [oneMat, oneMat]).length
      = (if stackEx.last_layer_only then 1 else stackEx.num_layers) :=
  stacked_call_outputs normId stackEx !![1] !![1] none [oneMat, oneMat]
    (by norm_num [stackEx])
    (by simp [stackEx, preactChain, gcPreact, gcStackLayer, normId, oneMat])

theorem vocab_size_eq_case :
    vocab_size stackEx
      = if stackEx.last_layer_only then 1 else stackEx.num_layers :=
  vocab_size_eq stackEx (by norm_num [stackEx])
